import Mathlib

/-!
Shallow embedding of `scripts/extract_epub_outline.py`.

The script extracts a structure-only outline from an EPUB archive.  Pure
functions of the script (`normalize_space`, `count_words`, `stable_hash`,
`slug_to_title`, `infer_chapter_number`) are translated as Lean functions.
The streaming `OutlineParser` (a subclass of Python's `html.parser.HTMLParser`)
is embedded at the event level: the standard-library tokenizer delivers
`handle_starttag` / `handle_endtag` / `handle_data` callbacks, so a document is
modelled as the list of those events and the parser as a state machine folded
over them.  `hashlib.sha256` incremental updates are modelled by accumulating
the fed byte stream and hashing it with an executable SHA-256 written over
`Nat`.  Strings are treated at ASCII fidelity (the Python code's regexes,
`.lower()`, `.casefold()`, `.title()` and `isdigit()` agree with the ASCII
models on ASCII data; tag names produced by `HTMLParser` are ASCII-lettered).
The try/except in `parse_document` that swallows tokenizer failures on
malformed markup sits below the event level: a document here is the event
list the tokenizer actually delivered, so that recovery path changes which
events arrive, not how the handlers treat them.
-/

/-- Python `\s` whitespace class on ASCII input (space, TAB, LF, CR, VT, FF). -/
def pyIsSpace (c : Char) : Bool :=
  c == ' ' || c == '\t' || c == '\n' || c == '\r' || c == Char.ofNat 11 || c == Char.ofNat 12

/-- One pass of `WS_RE.sub(" ", value)`: each maximal whitespace run becomes one space.
The boolean argument records whether the previous character was whitespace. -/
def collapseWs : Bool → List Char → List Char
  | _, [] => []
  | prevSpace, c :: cs =>
    if pyIsSpace c then
      if prevSpace then collapseWs true cs else ' ' :: collapseWs true cs
    else c :: collapseWs false cs

/-- Python `str.strip()` on a character list. -/
def stripEnds (cs : List Char) : List Char :=
  ((cs.dropWhile pyIsSpace).reverse.dropWhile pyIsSpace).reverse

/-- `normalize_space(value)` = `WS_RE.sub(" ", value).strip()`. -/
def normalize_space (value : String) : String :=
  String.mk (stripEnds (collapseWs false value.data))

/-- Python `str.lower()` on ASCII text. -/
def strLower (s : String) : String := String.mk (s.data.map Char.toLower)

/-- `sep.join(parts)` for a one-character separator, as characters. -/
def joinSep (sep : Char) : List String → List Char
  | [] => []
  | [s] => s.data
  | s :: rest => s.data ++ sep :: joinSep sep rest

/-- `" ".join(parts)`. -/
def joinWithSpace (parts : List String) : String := String.mk (joinSep ' ' parts)

/-- Python `str.split(sep)` for a one-character separator (splitting an empty
string yields one empty field, and adjacent separators yield empty fields). -/
def splitOnCharAux (sep : Char) : List Char → List Char → List String
  | acc, [] => [String.mk acc.reverse]
  | acc, c :: cs =>
    if c == sep then String.mk acc.reverse :: splitOnCharAux sep [] cs
    else splitOnCharAux sep (c :: acc) cs

/-- Python `s.split(sep)` for a one-character separator. -/
def splitOnChar (sep : Char) (s : String) : List String := splitOnCharAux sep [] s.data

/-- Scanner state for `WORD_RE = [A-Za-z0-9]+(?:'[A-Za-z0-9]+)?` match counting:
outside a match, in the first alnum run, just saw an apostrophe after a run,
in the second alnum run. -/
inductive WordScan where
  | out | run1 | sawQ | run2
deriving DecidableEq

/-- The apostrophe character (U+0027). -/
def quoteChar : Char := Char.ofNat 39

/-- Counts the matches of `WORD_RE` in a character stream, replaying the
regex's left-to-right maximal-munch scan as a state machine. -/
def countWordsAux : WordScan → List Char → Nat
  | _, [] => 0
  | WordScan.out, c :: cs =>
    if c.isAlphanum then 1 + countWordsAux WordScan.run1 cs else countWordsAux WordScan.out cs
  | WordScan.run1, c :: cs =>
    if c.isAlphanum then countWordsAux WordScan.run1 cs
    else if c == quoteChar then countWordsAux WordScan.sawQ cs
    else countWordsAux WordScan.out cs
  | WordScan.sawQ, c :: cs =>
    if c.isAlphanum then countWordsAux WordScan.run2 cs else countWordsAux WordScan.out cs
  | WordScan.run2, c :: cs =>
    if c.isAlphanum then countWordsAux WordScan.run2 cs else countWordsAux WordScan.out cs

/-- `count_words(value)` = `len(WORD_RE.findall(value))`. -/
def count_words (value : String) : Nat := countWordsAux WordScan.out value.data

/-- Concatenation of a list of lists. -/
def concatAll : List (List α) → List α
  | [] => []
  | l :: ls => l ++ concatAll ls

/-- UTF-8 encoding of one character, as byte values. -/
def utf8Char (c : Char) : List Nat :=
  let n := c.toNat
  if n < 128 then [n]
  else if n < 2048 then [192 + n / 64, 128 + n % 64]
  else if n < 65536 then [224 + n / 4096, 128 + n / 64 % 64, 128 + n % 64]
  else [240 + n / 262144, 128 + n / 4096 % 64, 128 + n / 64 % 64, 128 + n % 64]

/-- `s.encode("utf-8")` as a byte-value list. -/
def utf8Bytes (s : String) : List Nat :=
  concatAll (s.data.map utf8Char)

/-! SHA-256, executable over `Nat` byte values (for `hashlib.sha256`). -/

/-- Addition modulo `2^32`. -/
def add32 (a b : Nat) : Nat := (a + b) % 4294967296

/-- Right rotation of a 32-bit word. -/
def rotr32 (x n : Nat) : Nat :=
  Nat.lor (x >>> n) ((x <<< (32 - n)) % 4294967296)

/-- Bitwise complement of a 32-bit word. -/
def not32 (x : Nat) : Nat := Nat.xor x 4294967295

/-- SHA-256 small sigma 0. -/
def ssig0 (x : Nat) : Nat := (rotr32 x 7) ^^^ (rotr32 x 18) ^^^ (x >>> 3)

/-- SHA-256 small sigma 1. -/
def ssig1 (x : Nat) : Nat := (rotr32 x 17) ^^^ (rotr32 x 19) ^^^ (x >>> 10)

/-- SHA-256 big sigma 0. -/
def bsig0 (x : Nat) : Nat := (rotr32 x 2) ^^^ (rotr32 x 13) ^^^ (rotr32 x 22)

/-- SHA-256 big sigma 1. -/
def bsig1 (x : Nat) : Nat := (rotr32 x 6) ^^^ (rotr32 x 11) ^^^ (rotr32 x 25)

/-- SHA-256 choose function. -/
def chf (e f g : Nat) : Nat := (e &&& f) ^^^ ((not32 e) &&& g)

/-- SHA-256 majority function. -/
def majf (a b c : Nat) : Nat := (a &&& b) ^^^ (a &&& c) ^^^ (b &&& c)

/-- SHA-256 round constants, written in decimal. -/
def shaK : List Nat :=
  [1116352408, 1899447441, 3049323471, 3921009573, 961987163, 1508970993,
   2453635748, 2870763221, 3624381080, 310598401, 607225278, 1426881987,
   1925078388, 2162078206, 2614888103, 3248222580, 3835390401, 4022224774,
   264347078, 604807628, 770255983, 1249150122, 1555081692, 1996064986,
   2554220882, 2821834349, 2952996808, 3210313671, 3336571891, 3584528711,
   113926993, 338241895, 666307205, 773529912, 1294757372, 1396182291,
   1695183700, 1986661051, 2177026350, 2456956037, 2730485921, 2820302411,
   3259730800, 3345764771, 3516065817, 3600352804, 4094571909, 275423344,
   430227734, 506948616, 659060556, 883997877, 958139571, 1322822218,
   1537002063, 1747873779, 1955562222, 2024104815, 2227730452, 2361852424,
   2428436474, 2756734187, 3204031479, 3329325298]

/-- SHA-256 initial hash words, written in decimal. -/
def shaH0 : List Nat :=
  [1779033703, 3144134277, 1013904242, 2773480762,
   1359893119, 2600822924, 528734635, 1541459225]

/-- Big-endian bytes of a 64-bit length value. -/
def lenBytes64 (n : Nat) : List Nat :=
  [n / 72057594037927936 % 256, n / 281474976710656 % 256, n / 1099511627776 % 256,
   n / 4294967296 % 256, n / 16777216 % 256, n / 65536 % 256, n / 256 % 256, n % 256]

/-- SHA-256 message padding: 0x80, zeros to 56 mod 64, then the bit length. -/
def sha256Pad (msg : List Nat) : List Nat :=
  msg ++ 128 :: (List.replicate ((64 - (msg.length + 9) % 64) % 64) 0 ++ lenBytes64 (msg.length * 8))

/-- Big-endian 4-byte groups to 32-bit words. -/
def bytesToWords : List Nat → List Nat
  | b0 :: b1 :: b2 :: b3 :: rest => (((b0 * 256 + b1) * 256 + b2) * 256 + b3) :: bytesToWords rest
  | _ => []

/-- Splits a byte list into 64-byte blocks; the fuel bounds the recursion. -/
def toBlocks : Nat → List Nat → List (List Nat)
  | 0, _ => []
  | _, [] => []
  | fuel + 1, bs => bs.take 64 :: toBlocks fuel (bs.drop 64)

/-- Extends a 16-word message schedule by the given number of words. -/
def extendLoop : Nat → List Nat → List Nat
  | 0, w => w
  | k + 1, w =>
    let n := w.length
    let next := add32 (add32 (ssig1 (w.getD (n - 2) 0)) (w.getD (n - 7) 0))
                      (add32 (ssig0 (w.getD (n - 15) 0)) (w.getD (n - 16) 0))
    extendLoop k (w ++ [next])

/-- One SHA-256 round on the state `[a,b,c,d,e,f,g,h]`. -/
def round256 (st : List Nat) (k w : Nat) : List Nat :=
  match st with
  | [a, b, c, d, e, f, g, h] =>
    let t1 := add32 h (add32 (bsig1 e) (add32 (chf e f g) (add32 k w)))
    let t2 := add32 (bsig0 a) (majf a b c)
    [add32 t1 t2, a, b, c, add32 d t1, e, f, g]
  | _ => st

/-- Processes one padded 64-byte block. -/
def processBlock (h : List Nat) (block : List Nat) : List Nat :=
  let w := extendLoop 48 (bytesToWords block)
  let st := (shaK.zip w).foldl (fun s kw => round256 s kw.1 kw.2) h
  List.zipWith add32 h st

/-- SHA-256 digest of a byte list, as eight 32-bit words. -/
def sha256Words (msg : List Nat) : List Nat :=
  (toBlocks (sha256Pad msg).length (sha256Pad msg)).foldl processBlock shaH0

/-- One lowercase hexadecimal digit. -/
def hexDigit (n : Nat) : Char := Char.ofNat (if n < 10 then 48 + n else 87 + n)

/-- Lowercase hexadecimal rendering of a 32-bit word. -/
def wordHex (w : Nat) : List Char :=
  [hexDigit (w / 268435456 % 16), hexDigit (w / 16777216 % 16), hexDigit (w / 1048576 % 16),
   hexDigit (w / 65536 % 16), hexDigit (w / 4096 % 16), hexDigit (w / 256 % 16),
   hexDigit (w / 16 % 16), hexDigit (w % 16)]

/-- `hashlib.sha256(msg).hexdigest()`: lowercase-hex SHA-256 of a byte list. -/
def sha256Hex (msg : List Nat) : String :=
  String.mk (concatAll ((sha256Words msg).map wordHex))

/-- `stable_hash(*parts)`: feed each part's UTF-8 bytes then the byte 0x1F
into one SHA-256 context (incremental `update`s modelled as accumulating the
fed stream), and return the lowercase hex digest. -/
def stable_hash (parts : List String) : String :=
  sha256Hex (parts.foldl (fun buf p => buf ++ utf8Bytes p ++ [31]) [])

/-! Chapter number inference: `CHAPTER_RE`, `CH_RE` and `infer_chapter_number`. -/

/-- Python `\w` (ASCII): letters, digits and underscore. -/
def isWordChar (c : Char) : Bool := c.isAlphanum || c == '_'

/-- Whether the character preceding the current scan position is a word character
(start of string counts as a non-word position). -/
def prevIsWord : Option Char → Bool
  | none => false
  | some c => isWordChar c

/-- Case-insensitively strips the (lowercase) pattern from the front of the input,
returning the remainder on success. -/
def stripCI : List Char → List Char → Option (List Char)
  | [], cs => some cs
  | _ :: _, [] => none
  | p :: ps, c :: cs => if c.toLower == p then stripCI ps cs else none

/-- Decimal value of a digit list. -/
def digitsVal (ds : List Char) : Nat := ds.foldl (fun a c => a * 10 + (c.toNat - 48)) 0

/-- Whether a list starts with a word character (used for `\b` checks). -/
def headIsWord : List Char → Bool
  | [] => false
  | c :: _ => isWordChar c

/-- `(\d{1,3})\b` at the current position: the greedy quantifier tries the
longest digit prefix first (bounded by the first argument's successor),
requiring a non-word character (or the end) after it. -/
def tryDigits (ds : List Char) : Nat → Option Nat
  | 0 => none
  | k + 1 =>
    let pre := ds.take (k + 1)
    if pre.length == k + 1 && pre.all Char.isDigit && !headIsWord (ds.drop (k + 1)) then
      some (digitsVal pre)
    else tryDigits ds k

/-- `0*(\d{1,3})\b` backtracking: the greedy `0*` tries consuming the given
number of zeros first, giving zeros back one at a time on failure. -/
def zerosThenDigits : List Char → Nat → Option Nat
  | rest, 0 => tryDigits rest 3
  | rest, z + 1 =>
    match tryDigits (rest.drop (z + 1)) 3 with
    | some v => some v
    | none => zerosThenDigits rest z

/-- `0*(\d{1,3})\b` at the current position. -/
def tailDigits (rest : List Char) : Option Nat :=
  zerosThenDigits rest ((rest.takeWhile (fun c => c == '0')).length)

/-- `CHAPTER_RE = \bchapter\s*0*(\d{1,3})\b` (case-insensitive) tried at one
position, given the previous character. -/
def matchChapterAt (prev : Option Char) (cs : List Char) : Option Nat :=
  if prevIsWord prev then none
  else
    match stripCI "chapter".data cs with
    | none => none
    | some rest => tailDigits (rest.dropWhile pyIsSpace)

/-- `CHAPTER_RE.search`: leftmost matching position wins. -/
def searchChapterRe : Option Char → List Char → Option Nat
  | _, [] => none
  | prev, c :: cs =>
    match matchChapterAt prev (c :: cs) with
    | some v => some v
    | none => searchChapterRe (some c) cs

/-- Separator class `[_\-\s]` of `CH_RE`. -/
def isChSep (c : Char) : Bool := c == '_' || c == '-' || pyIsSpace c

/-- `CH_RE = \bch(?:apter)?[_\-\s]*0*(\d{1,3})\b` (case-insensitive) tried at
one position: the optional greedy `(?:apter)?` is tried with the group first. -/
def matchChAt (prev : Option Char) (cs : List Char) : Option Nat :=
  if prevIsWord prev then none
  else
    match stripCI "ch".data cs with
    | none => none
    | some rest =>
      match
        (match stripCI "apter".data rest with
         | none => none
         | some rest2 => tailDigits (rest2.dropWhile isChSep)) with
      | some v => some v
      | none => tailDigits (rest.dropWhile isChSep)

/-- `CH_RE.search`: leftmost matching position wins. -/
def searchChRe : Option Char → List Char → Option Nat
  | _, [] => none
  | prev, c :: cs =>
    match matchChAt prev (c :: cs) with
    | some v => some v
    | none => searchChRe (some c) cs

/-- The per-candidate search of `infer_chapter_number`: `CHAPTER_RE` first,
then `CH_RE`. -/
def chapterHint (s : String) : Option Nat :=
  match searchChapterRe none s.data with
  | some v => some v
  | none => searchChRe none s.data

/-- `infer_chapter_number(title, href, fallback_order)`: scan the title then
the href; the first match wins, otherwise the fallback position. -/
def infer_chapter_number (title href : String) (fallback_order : Nat) : Nat :=
  match chapterHint title with
  | some v => v
  | none =>
    match chapterHint href with
    | some v => v
    | none => fallback_order

/-! `slug_to_title`. -/

/-- `pathlib.Path(value).stem` for the POSIX paths this script handles:
the last path component with its final extension removed (a leading dot or a
trailing dot does not start an extension). -/
def pathStem (value : String) : String :=
  let parts := (splitOnChar '/' value).filter (fun p => p != "" && p != ".")
  let name := (parts.getLast?).getD ""
  let cs := name.data
  match cs.reverse with
  | [] => ""
  | r0 :: _ =>
    if r0 == '.' then name
    else
      match cs.reverse.dropWhile (fun c => c != '.') with
      | [] => name
      | _ :: restRev => if restRev.isEmpty then name else String.mk restRev.reverse

/-- One pass of `re.sub(r"[_\-]+", " ", stem)`. -/
def subDashRuns : Bool → List Char → List Char
  | _, [] => []
  | prevDash, c :: cs =>
    if c == '_' || c == '-' then
      if prevDash then subDashRuns true cs else ' ' :: subDashRuns true cs
    else c :: subDashRuns false cs

/-- Python `str.title()` on ASCII text: the first letter of each alphabetic run
is uppercased, the rest lowercased. -/
def pyTitleAux : Bool → List Char → List Char
  | _, [] => []
  | prevAlpha, c :: cs =>
    if c.isAlpha then (if prevAlpha then c.toLower else c.toUpper) :: pyTitleAux true cs
    else c :: pyTitleAux false cs

/-- `slug_to_title(value)`: humanize the filename stem (underscores and hyphens
to spaces, title case); falls back to the raw value for an empty stem. -/
def slug_to_title (value : String) : String :=
  let stem := String.mk (stripEnds (subDashRuns false (pathStem value).data))
  if stem != "" then String.mk (pyTitleAux false stem.data) else value

/-! The `OutlineParser` state machine. -/

/-- One pending heading record of `OutlineParser.sections` (the Python code
stores dicts with these exact keys). -/
structure SectionRec where
  order : Nat
  level : Nat
  title : String
  word_count : Nat
deriving DecidableEq

/-- In-place update of the element at an index (Python `sections[i][...] = ...`). -/
def modifyNth (f : α → α) : Nat → List α → List α
  | _, [] => []
  | 0, a :: as => f a :: as
  | n + 1, a :: as => a :: modifyNth f n as

/-- The mutable fields of `OutlineParser`.  `skip_depth` is an integer exactly
as in Python so that its non-negativity is a real invariant; `digest_chunks`
records the chunk stream fed to the running SHA-256 `_content_digest`
(each chunk is followed by a newline byte when hashing). -/
structure ParserState where
  sections : List SectionRec
  total_word_count : Nat
  in_title : Bool
  skip_depth : Int
  title_parts : List String
  heading_level : Option Nat
  heading_parts : List String
  active_section_index : Option Nat
  digest_chunks : List String
deriving DecidableEq

/-- `OutlineParser.__init__`. -/
def initState : ParserState :=
  { sections := [], total_word_count := 0, in_title := false, skip_depth := 0,
    title_parts := [], heading_level := none, heading_parts := [],
    active_section_index := none, digest_chunks := [] }

/-- ASCII decimal digit test (Python `str.isdigit()` on the ASCII tag names
the tokenizer produces). -/
def pyIsDigit (c : Char) : Bool := decide (48 ≤ c.toNat ∧ c.toNat ≤ 57)

/-- The heading-tag test `lower.startswith("h") and len(lower) == 2 and
lower[1].isdigit()`, returning `int(lower[1])`. -/
def isHeadingTag (lower : String) : Option Nat :=
  match lower.data with
  | [c0, c1] => if c0 == 'h' && pyIsDigit c1 then some (c1.toNat - 48) else none
  | _ => none

/-- `OutlineParser._record_word_chunk`. -/
def record_word_chunk (st : ParserState) (chunk : String) : ParserState :=
  let words := count_words chunk
  if words == 0 then st
  else
    let st1 := { st with total_word_count := st.total_word_count + words,
                         digest_chunks := st.digest_chunks ++ [chunk] }
    match st1.heading_level, st1.active_section_index with
    | none, some i =>
      { st1 with sections :=
          modifyNth (fun s => { s with word_count := s.word_count + words }) i st1.sections }
    | _, _ => st1

/-- `OutlineParser.handle_starttag`. -/
def handle_starttag (st : ParserState) (tag : String) : ParserState :=
  let lower := strLower tag
  if lower == "script" || lower == "style" then { st with skip_depth := st.skip_depth + 1 }
  else if lower == "title" then { st with in_title := true }
  else
    match isHeadingTag lower with
    | some l => { st with heading_level := some l, heading_parts := [] }
    | none => st

/-- `OutlineParser.handle_endtag`. -/
def handle_endtag (st : ParserState) (tag : String) : ParserState :=
  let lower := strLower tag
  if lower == "script" || lower == "style" then
    if st.skip_depth > 0 then { st with skip_depth := st.skip_depth - 1 } else st
  else if lower == "title" then { st with in_title := false }
  else
    match st.heading_level, isHeadingTag lower with
    | some hl, some l =>
      if l == hl then
        let heading_title := normalize_space (joinWithSpace st.heading_parts)
        let st1 :=
          if heading_title != "" then
            { st with
              sections := st.sections ++
                [{ order := st.sections.length + 1, level := hl,
                   title := heading_title, word_count := 0 }],
              active_section_index := some st.sections.length }
          else st
        { st1 with heading_level := none, heading_parts := [] }
      else st
    | _, _ => st

/-- `OutlineParser.handle_data`. -/
def handle_data (st : ParserState) (data : String) : ParserState :=
  if st.skip_depth > 0 then st
  else
    let chunk := normalize_space data
    if chunk == "" then st
    else
      let st1 := record_word_chunk st chunk
      let st2 := if st1.in_title then { st1 with title_parts := st1.title_parts ++ [chunk] } else st1
      if st2.heading_level.isSome then { st2 with heading_parts := st2.heading_parts ++ [chunk] }
      else st2

/-- One tokenizer callback: start tag, end tag, or text data. -/
inductive DocEvent where
  | start (tag : String)
  | close (tag : String)
  | text (s : String)
deriving DecidableEq

/-- Dispatches one event to the matching handler. -/
def step (st : ParserState) (e : DocEvent) : ParserState :=
  match e with
  | DocEvent.start t => handle_starttag st t
  | DocEvent.close t => handle_endtag st t
  | DocEvent.text d => handle_data st d

/-- Folds the parser over an event stream from a given state. -/
def processFrom (st : ParserState) (es : List DocEvent) : ParserState :=
  es.foldl step st

/-- Runs the parser over a whole document's events (`parser.feed`). -/
def runEvents (evs : List DocEvent) : ParserState := processFrom initState evs

/-- `OutlineParser.document_title`. -/
def document_title (st : ParserState) : String :=
  normalize_space (joinWithSpace st.title_parts)

/-- `OutlineParser.content_hash`: hex digest of the running content digest,
which was fed each recorded chunk's UTF-8 bytes followed by one newline byte. -/
def content_hash (st : ParserState) : String :=
  sha256Hex (concatAll (st.digest_chunks.map (fun c => utf8Bytes c ++ [10])))

/-! `parse_document` and the outline assembler. -/

/-- Python string `or` (empty string is falsy). -/
def pyOr (a b : String) : String := if a == "" then b else a

/-- `headings[0]["title"] if headings else ""`. -/
def first_heading_title : List SectionRec → String
  | [] => ""
  | h :: _ => h.title

/-- The chapter title candidate chain of `parse_document`. -/
def chapter_title_of (href : String) (evs : List DocEvent) : String :=
  pyOr (first_heading_title (runEvents evs).sections)
       (pyOr (document_title (runEvents evs)) (slug_to_title href))

/-- The `section_rows` selection of `parse_document`: drop the first heading
when it mirrors the chapter title (case-folded) and is level 2 or shallower. -/
def section_rows_of (href : String) (evs : List DocEvent) : List SectionRec :=
  match (runEvents evs).sections with
  | [] => []
  | h0 :: rest =>
    if strLower (normalize_space (first_heading_title (h0 :: rest))) ==
         strLower (normalize_space (chapter_title_of href evs)) && h0.level ≤ 2
    then rest
    else h0 :: rest

/-- Pairs list elements with positions counting from the given start
(Python `enumerate(xs, start=n)`). -/
def enumFrom (n : Nat) : List α → List (Nat × α)
  | [] => []
  | a :: as => (n, a) :: enumFrom (n + 1) as

/-- One emitted section row of a chapter. -/
structure EmittedSection where
  order : Nat
  level : Nat
  title : String
  href : String
  word_count : Nat
  hash : String
deriving DecidableEq

/-- One chapter record of the outline. -/
structure Chapter where
  order : Nat
  chapter_number : Nat
  href : String
  title : String
  word_count : Nat
  hash : String
  sections : List EmittedSection
deriving DecidableEq

/-- `parse_document(order, href, content_bytes)` over the document's events. -/
def parse_document (order : Nat) (href : String) (evs : List DocEvent) : Chapter :=
  { order := order,
    chapter_number := infer_chapter_number (chapter_title_of href evs) href order,
    href := href,
    title := chapter_title_of href evs,
    word_count := (runEvents evs).total_word_count,
    hash := stable_hash [href, chapter_title_of href evs,
                         toString (runEvents evs).total_word_count,
                         content_hash (runEvents evs)],
    sections := (enumFrom 1 (section_rows_of href evs)).map (fun p =>
      { order := p.1, level := p.2.level, title := p.2.title,
        href := href ++ "#s" ++ toString p.1, word_count := p.2.word_count,
        hash := stable_hash [href, toString p.2.level, p.2.title, toString p.2.word_count] }) }

/-- The chapter loop of `build_outline`: skip hrefs already seen, parse with the
next sequential order, and drop chapters with zero words and zero sections. -/
def buildChaptersAux (seen : List String) (acc : List Chapter) :
    List (String × List DocEvent) → List Chapter
  | [] => acc
  | (href, doc) :: rest =>
    if href ∈ seen then buildChaptersAux seen acc rest
    else
      let ch := parse_document (acc.length + 1) href doc
      if ch.word_count = 0 ∧ ch.sections = [] then buildChaptersAux (href :: seen) acc rest
      else buildChaptersAux (href :: seen) (acc ++ [ch]) rest

/-- The deduplicated spine: first occurrence of each href wins (this replays
exactly the `seen_hrefs` filtering of `build_outline`). -/
def dedupAux (seen : List String) : List (String × List DocEvent) → List (String × List DocEvent)
  | [] => []
  | (href, doc) :: rest =>
    if href ∈ seen then dedupAux seen rest
    else (href, doc) :: dedupAux (href :: seen) rest

/-- `build_outline`, reduced to its chapter list and failure behaviour (the
header fields — timestamp, source hash, engine — are pure metadata). -/
def build_outline (spine : List (String × List DocEvent)) : Except String (List Chapter) :=
  if spine = [] then Except.error "No spine XHTML documents found in EPUB."
  else
    if buildChaptersAux [] [] spine = [] then
      Except.error "Spine parsing finished, but no chapter structure was extracted."
    else Except.ok (buildChaptersAux [] [] spine)

/-- `main`, reduced to its exit code and whether the two output files are
written: outputs are written only after `build_outline` succeeds. -/
def main_run (input_exists : Bool) (spine : List (String × List DocEvent)) : Nat × Bool :=
  if !input_exists then (1, false)
  else
    match build_outline spine with
    | Except.error _ => (1, false)
    | Except.ok _ => (0, true)

/-! `load_spine_from_zip`, with the XML already parsed into manifest items and
spine idrefs (the `xml.etree` calls are standard-library parsing). -/

/-- One `<manifest><item>` of the package document. -/
structure ManifestItem where
  id : String
  href : String
  media_type : String
deriving DecidableEq

/-- The manifest dictionaries: items with empty id or href are not inserted,
and a later item with the same id overwrites an earlier one. -/
def manifestLookup : List ManifestItem → String → Option (String × String)
  | [], _ => none
  | it :: rest, key =>
    match manifestLookup rest key with
    | some r => some r
    | none =>
      if it.id == key && it.id != "" && it.href != "" then some (it.href, it.media_type)
      else none

/-- `"xhtml" in media_type or "html" in media_type` needs a substring test. -/
def startsWithChars : List Char → List Char → Bool
  | [], _ => true
  | _ :: _, [] => false
  | n :: ns, h :: hs => n == h && startsWithChars ns hs

/-- Python `needle in haystack` on strings. -/
def containsSub (hay needle : List Char) : Bool :=
  match hay with
  | [] => needle.isEmpty
  | _ :: rest => startsWithChars needle hay || containsSub rest needle

/-- The media-type filter of the spine loop. -/
def htmlish (media : String) : Bool :=
  containsSub media.data "xhtml".data || containsSub media.data "html".data

/-- `posixpath.dirname`. -/
def posixDirname (p : String) : String :=
  let cs := p.data
  let keep := cs.length - (cs.reverse.takeWhile (fun c => c != '/')).length
  let head := cs.take keep
  if head.isEmpty then ""
  else if head.all (fun c => c == '/') then String.mk head
  else String.mk ((head.reverse.dropWhile (fun c => c == '/')).reverse)

/-- `posixpath.join` for two components. -/
def posixJoin (a b : String) : String :=
  if b.data.head? == some '/' then b
  else if a == "" || a.data.getLast? == some '/' then a ++ b
  else a ++ "/" ++ b

/-- `posixpath.normpath`. -/
def posixNormpath (p : String) : String :=
  if p == "" then "."
  else
    let slashes : Nat :=
      if p.data.head? == some '/' then
        if startsWithChars "//".data p.data && !startsWithChars "///".data p.data then 2 else 1
      else 0
    let comps := splitOnChar '/' p
    let newComps := comps.foldl (fun acc comp =>
      if comp == "" || comp == "." then acc
      else if comp != ".." || (slashes == 0 && acc.isEmpty) ||
              (!acc.isEmpty && acc.getLast? == some "..") then acc ++ [comp]
      else if !acc.isEmpty then acc.dropLast
      else acc) []
    let res := String.mk (List.replicate slashes '/' ++ joinSep '/' newComps)
    if res == "" then "." else res

/-- Reads an archive member (`archive.read`), `none` when the path is absent. -/
def archiveRead (archive : List (String × List Nat)) (path : String) : Option (List Nat) :=
  match archive.find? (fun e => e.1 == path) with
  | some e => some e.2
  | none => none

/-- The spine loop of `load_spine_from_zip`: the order counter advances only
for entries actually yielded, the yielded path component is the manifest href,
and the bytes are read at the href resolved against the package directory. -/
def load_spine_aux (opf_dir : String) (manifest : List ManifestItem)
    (archive : List (String × List Nat)) (order : Nat) :
    List String → List (Nat × String × List Nat)
  | [] => []
  | idref :: rest =>
    if idref == "" then load_spine_aux opf_dir manifest archive order rest
    else
      match manifestLookup manifest idref with
      | none => load_spine_aux opf_dir manifest archive order rest
      | some (href, media) =>
        if !htmlish media then load_spine_aux opf_dir manifest archive order rest
        else
          match archiveRead archive (posixNormpath (posixJoin opf_dir href)) with
          | none => load_spine_aux opf_dir manifest archive order rest
          | some content => (order + 1, href, content) :: load_spine_aux opf_dir manifest archive (order + 1) rest

/-- `load_spine_from_zip` after the container and package documents are parsed:
iterate the spine idrefs against the manifest and the archive contents. -/
def load_spine_from_zip (opf_path : String) (manifest : List ManifestItem)
    (spine_refs : List String) (archive : List (String × List Nat)) :
    List (Nat × String × List Nat) :=
  load_spine_aux (posixDirname opf_path) manifest archive 0 spine_refs

/-- The digest-update stream as the specification's words describe it: every
non-empty normalized text chunk encountered outside skip regions, in order
(this is the spec-side definition compared against the code's behaviour). -/
def specDigestChunks : Int → List DocEvent → List String
  | _, [] => []
  | d, DocEvent.start t :: es =>
    if strLower t == "script" || strLower t == "style" then specDigestChunks (d + 1) es
    else specDigestChunks d es
  | d, DocEvent.close t :: es =>
    if strLower t == "script" || strLower t == "style" then
      if d > 0 then specDigestChunks (d - 1) es else specDigestChunks d es
    else specDigestChunks d es
  | d, DocEvent.text s :: es =>
    if d > 0 then specDigestChunks d es
    else
      if normalize_space s == "" then specDigestChunks d es
      else normalize_space s :: specDigestChunks d es

/-! Concrete inputs used by counterexamples and witnesses. -/

/-- Event stream of `<h1>Chapter 1</h1><p>Hello world</p><h2>Intro</h2><p>More words here</p>`. -/
def c1Events : List DocEvent :=
  [DocEvent.start "h1", DocEvent.text "Chapter 1", DocEvent.close "h1",
   DocEvent.start "p", DocEvent.text "Hello world", DocEvent.close "p",
   DocEvent.start "h2", DocEvent.text "Intro", DocEvent.close "h2",
   DocEvent.start "p", DocEvent.text "More words here", DocEvent.close "p"]

/-- A spine whose first document is empty (dropped) and whose second has plain
text and no chapter-number hint in title or href. -/
def dropSpine : List (String × List DocEvent) :=
  [("a.xhtml", []), ("b.xhtml", [DocEvent.text "hello"])]

/-- A manifest with one XHTML item whose href is relative to the package directory. -/
def zipManifest : List ManifestItem := [⟨"c1", "text/ch1.xhtml", "application/xhtml+xml"⟩]

/-- An archive holding the document at the href resolved against `OEBPS/`. -/
def zipArchive : List (String × List Nat) := [("OEBPS/text/ch1.xhtml", [60, 112, 62])]

/-! Theorems for the claims. -/

/-- Auxiliary: folding the `stable_hash` updates over a buffer appends the
parts' separated byte streams to it. -/
theorem stableHashFold (parts : List String) : ∀ buf : List Nat,
    parts.foldl (fun b p => b ++ utf8Bytes p ++ [31]) buf =
      buf ++ concatAll (parts.map (fun p => utf8Bytes p ++ [31])) := by
  induction parts with
  | nil => intro buf; simp [concatAll]
  | cons p rest ih =>
    intro buf
    rw [List.foldl_cons, ih]
    simp [concatAll, List.append_assoc]

/-- C9: `stable_hash` is the lowercase-hex SHA-256 of the concatenation of each
part's UTF-8 bytes followed by the byte 0x1F (including after the last part);
in particular `stable_hash ["ab","c"]` and `stable_hash ["a","bc"]` differ. -/
theorem c9_stable_hash :
    (∀ parts : List String,
      stable_hash parts = sha256Hex (concatAll (parts.map (fun p => utf8Bytes p ++ [31])))) ∧
    stable_hash ["ab", "c"] ≠ stable_hash ["a", "bc"] := by
  constructor
  · intro parts
    unfold stable_hash
    rw [stableHashFold parts []]
    rfl
  · decide

/-- C9 witness: the separator byte distinguishes the two concrete splits. -/
theorem c9_stable_hash_witness : stable_hash ["ab", "c"] ≠ stable_hash ["a", "bc"] :=
  c9_stable_hash.2

/-- C1 counterexample: on the claimed document the chapter word count is not 7
(the regex counts Chapter, 1, Hello, world, Intro, More, words, here: 8 words). -/
theorem c1_word_count_counterexample :
    (parse_document 1 "ch01.xhtml" c1Events).word_count ≠ 7 := by decide

/-- C1 (amended): the document yields chapter title "Chapter 1", the first
heading is excluded (the parser saw two headings but one section is emitted),
the emitted section is "Intro" with word_count 3, and the chapter word_count
is 8 (all words across the document, including "Chapter 1" as two words). -/
theorem c1_document_parse :
    (parse_document 1 "ch01.xhtml" c1Events).title = "Chapter 1" ∧
    (runEvents c1Events).sections.length = 2 ∧
    (parse_document 1 "ch01.xhtml" c1Events).sections.map
        (fun s => (s.order, s.level, s.title, s.href, s.word_count)) =
      [(1, 2, "Intro", "ch01.xhtml#s1", 3)] ∧
    (parse_document 1 "ch01.xhtml" c1Events).word_count = 8 := by
  refine ⟨by decide, by decide, by decide, by decide⟩

/-- C2 counterexample: a punctuation-only chunk is in the spec-described stream
but is never fed to the content digest (`_record_word_chunk` returns early when
the chunk has no word matches). -/
theorem c2_punctuation_counterexample :
    (runEvents [DocEvent.text "!!!"]).digest_chunks ≠
      specDigestChunks 0 [DocEvent.text "!!!"] := by decide

/-- C3 counterexample: the fallback spine loader yields the unresolved manifest
href "text/ch1.xhtml", not the resolved archive path "OEBPS/text/ch1.xhtml". -/
theorem c3_unresolved_href_counterexample :
    load_spine_from_zip "OEBPS/content.opf" zipManifest ["c1"] zipArchive =
      [(1, "text/ch1.xhtml", [60, 112, 62])] ∧
    posixNormpath (posixJoin (posixDirname "OEBPS/content.opf") "text/ch1.xhtml") =
      "OEBPS/text/ch1.xhtml" ∧
    ("text/ch1.xhtml" : String) ≠ "OEBPS/text/ch1.xhtml" := by
  refine ⟨by decide, by decide, by decide⟩

/-- C4 counterexample: with an empty first document, the second document sits at
position 2 of the deduplicated spine but its fallback chapter_number is 1,
because the fallback counts only chapters that survived the empty-document drop. -/
theorem c4_position_counterexample :
    (buildChaptersAux [] [] dropSpine).map (fun c => (c.href, c.chapter_number)) =
      [("b.xhtml", 1)] ∧
    dropSpine.map Prod.fst = ["a.xhtml", "b.xhtml"] ∧
    chapterHint (parse_document 1 "b.xhtml" [DocEvent.text "hello"]).title = none ∧
    chapterHint "b.xhtml" = none := by
  refine ⟨by decide, by decide, by decide, by decide⟩

/-- C5 counterexample: the tag `h0` opens a heading (`isdigit` accepts '0'), so
a section with level 0 — outside the claimed 1..9 range — is emitted. -/
theorem c5_level_zero_counterexample :
    ¬ (∀ s ∈ (runEvents [DocEvent.start "h0", DocEvent.text "Preface",
                          DocEvent.close "h0"]).sections, 1 ≤ s.level) := by decide

/-! Characterization lemmas for the three handlers. -/

theorem starttag_digest (st : ParserState) (t : String) :
    (handle_starttag st t).digest_chunks = st.digest_chunks := by
  simp only [handle_starttag]
  repeat' split
  all_goals rfl

theorem starttag_sections (st : ParserState) (t : String) :
    (handle_starttag st t).sections = st.sections := by
  simp only [handle_starttag]
  repeat' split
  all_goals rfl

theorem starttag_total (st : ParserState) (t : String) :
    (handle_starttag st t).total_word_count = st.total_word_count := by
  simp only [handle_starttag]
  repeat' split
  all_goals rfl

theorem starttag_active (st : ParserState) (t : String) :
    (handle_starttag st t).active_section_index = st.active_section_index := by
  simp only [handle_starttag]
  repeat' split
  all_goals rfl

theorem starttag_skip (st : ParserState) (t : String) :
    (handle_starttag st t).skip_depth =
      if strLower t == "script" || strLower t == "style" then st.skip_depth + 1
      else st.skip_depth := by
  simp only [handle_starttag]
  repeat' split
  all_goals simp_all

theorem starttag_heading (st : ParserState) (t : String) (l : Nat)
    (h : (handle_starttag st t).heading_level = some l) :
    st.heading_level = some l ∨ isHeadingTag (strLower t) = some l := by
  revert h
  simp only [handle_starttag]
  repeat' split
  all_goals intro h
  all_goals simp_all

theorem endtag_digest (st : ParserState) (t : String) :
    (handle_endtag st t).digest_chunks = st.digest_chunks := by
  simp only [handle_endtag]
  repeat' split
  all_goals rfl

theorem endtag_total (st : ParserState) (t : String) :
    (handle_endtag st t).total_word_count = st.total_word_count := by
  simp only [handle_endtag]
  repeat' split
  all_goals rfl

theorem endtag_skip (st : ParserState) (t : String) :
    (handle_endtag st t).skip_depth =
      if strLower t == "script" || strLower t == "style" then
        (if st.skip_depth > 0 then st.skip_depth - 1 else st.skip_depth)
      else st.skip_depth := by
  simp only [handle_endtag]
  repeat' split
  all_goals simp_all

theorem endtag_heading (st : ParserState) (t : String) (l : Nat)
    (h : (handle_endtag st t).heading_level = some l) :
    st.heading_level = some l := by
  revert h
  simp only [handle_endtag]
  repeat' split
  all_goals intro h
  all_goals simp_all

theorem endtag_shape (st : ParserState) (t : String) :
    ((handle_endtag st t).sections = st.sections ∧
     (handle_endtag st t).active_section_index = st.active_section_index) ∨
    (∃ hl title, st.heading_level = some hl ∧ title ≠ "" ∧
      (handle_endtag st t).sections =
        st.sections ++ [{ order := st.sections.length + 1, level := hl,
                          title := title, word_count := 0 }] ∧
      (handle_endtag st t).active_section_index = some st.sections.length) := by
  simp only [handle_endtag]
  repeat' split
  all_goals try exact Or.inl ⟨rfl, rfl⟩
  all_goals refine Or.inr ?_
  all_goals simp_all

theorem data_skip (st : ParserState) (d : String) :
    (handle_data st d).skip_depth = st.skip_depth := by
  simp only [handle_data, record_word_chunk]
  repeat' split
  all_goals rfl

theorem data_heading (st : ParserState) (d : String) :
    (handle_data st d).heading_level = st.heading_level := by
  simp only [handle_data, record_word_chunk]
  repeat' split
  all_goals rfl

theorem data_active (st : ParserState) (d : String) :
    (handle_data st d).active_section_index = st.active_section_index := by
  simp only [handle_data, record_word_chunk]
  repeat' split
  all_goals rfl

theorem data_total (st : ParserState) (d : String) :
    (handle_data st d).total_word_count =
      if st.skip_depth > 0 then st.total_word_count
      else st.total_word_count + count_words (normalize_space d) := by
  simp only [handle_data, record_word_chunk]
  repeat' split
  all_goals simp_all
  all_goals simp_all [count_words, countWordsAux]

theorem data_digest (st : ParserState) (d : String) :
    (handle_data st d).digest_chunks =
      if st.skip_depth > 0 ∨ count_words (normalize_space d) = 0 then st.digest_chunks
      else st.digest_chunks ++ [normalize_space d] := by
  simp only [handle_data, record_word_chunk]
  repeat' split
  all_goals simp_all
  all_goals simp_all [count_words, countWordsAux]
  all_goals omega

theorem data_sections (st : ParserState) (d : String) :
    (handle_data st d).sections =
      if st.skip_depth > 0 ∨ count_words (normalize_space d) = 0 then st.sections
      else
        match st.heading_level, st.active_section_index with
        | none, some i =>
          modifyNth (fun s => { s with word_count := s.word_count + count_words (normalize_space d) }) i st.sections
        | _, _ => st.sections := by
  simp only [handle_data, record_word_chunk]
  repeat' split
  all_goals simp_all
  all_goals simp_all [count_words, countWordsAux]
  all_goals omega

/-! Reachable-state invariants of the parser. -/

theorem processFrom_cons (st : ParserState) (e : DocEvent) (es : List DocEvent) :
    processFrom st (e :: es) = processFrom (step st e) es := rfl

/-- Membership in a pointwise update comes from the original list, possibly
through the update function. -/
theorem mem_modifyNth (f : α → α) (s : α) :
    ∀ (i : Nat) (l : List α), s ∈ modifyNth f i l → s ∈ l ∨ ∃ t ∈ l, s = f t := by
  intro i l
  induction l generalizing i with
  | nil => intro h; simp [modifyNth] at h
  | cons a as ih =>
    intro h
    cases i with
    | zero =>
      simp only [modifyNth, List.mem_cons] at h
      rcases h with h | h
      · exact Or.inr ⟨a, List.mem_cons_self a as, h⟩
      · exact Or.inl (List.mem_cons_of_mem a h)
    | succ n =>
      simp only [modifyNth, List.mem_cons] at h
      rcases h with h | h
      · exact Or.inl (h ▸ List.mem_cons_self a as)
      · rcases ih n h with h2 | ⟨t, ht, hs⟩
        · exact Or.inl (List.mem_cons_of_mem a h2)
        · exact Or.inr ⟨t, List.mem_cons_of_mem a ht, hs⟩

/-- `modifyNth` preserves the list length. -/
theorem modifyNth_length (f : α → α) : ∀ (i : Nat) (l : List α),
    (modifyNth f i l).length = l.length := by
  intro i l
  induction l generalizing i with
  | nil => simp [modifyNth]
  | cons a as ih =>
    cases i with
    | zero => simp [modifyNth]
    | succ n => simp [modifyNth, ih]

/-- A heading can only open with a single-digit level, so levels are at most 9. -/
theorem isHeadingTag_le9 (s : String) (l : Nat) (h : isHeadingTag s = some l) : l ≤ 9 := by
  unfold isHeadingTag at h
  split at h
  · split at h
    · rename_i c0 c1 heq hc
      injection h with h
      subst h
      simp only [Bool.and_eq_true, pyIsDigit, decide_eq_true_eq] at hc
      omega
    · exact absurd h (by simp)
  · exact absurd h (by simp)

/-- The well-formedness invariant the parser maintains on reachable states:
every recorded section has a level of at most 9 and a non-empty title, and any
open heading level is at most 9. -/
def SectionsWF (st : ParserState) : Prop :=
  (∀ s ∈ st.sections, s.level ≤ 9 ∧ s.title ≠ "") ∧
  (∀ l, st.heading_level = some l → l ≤ 9)

theorem sectionsWF_step (st : ParserState) (e : DocEvent) (h : SectionsWF st) :
    SectionsWF (step st e) := by
  obtain ⟨hsec, hhead⟩ := h
  cases e with
  | start t =>
    show SectionsWF (handle_starttag st t)
    refine ⟨?_, ?_⟩
    · intro s hs
      rw [starttag_sections] at hs
      exact hsec s hs
    · intro l hl
      rcases starttag_heading st t l hl with h | h
      · exact hhead l h
      · exact isHeadingTag_le9 _ l h
  | close t =>
    show SectionsWF (handle_endtag st t)
    refine ⟨?_, ?_⟩
    · intro s hs
      rcases endtag_shape st t with ⟨hse, _⟩ | ⟨hl, title, hlev, hne, hse, _⟩
      · rw [hse] at hs
        exact hsec s hs
      · rw [hse] at hs
        rcases List.mem_append.mp hs with h | h
        · exact hsec s h
        · simp only [List.mem_singleton] at h
          subst h
          exact ⟨hhead hl hlev, hne⟩
    · intro l hl
      exact hhead l (endtag_heading st t l hl)
  | text d =>
    show SectionsWF (handle_data st d)
    refine ⟨?_, ?_⟩
    · intro s hs
      rw [data_sections] at hs
      split at hs
      · exact hsec s hs
      · split at hs
        · rcases mem_modifyNth _ s _ _ hs with h | ⟨u, hu, hsu⟩
          · exact hsec s h
          · subst hsu
            exact ⟨(hsec u hu).1, (hsec u hu).2⟩
        · exact hsec s hs
    · intro l hl
      rw [data_heading] at hl
      exact hhead l hl

theorem sectionsWF_processFrom (es : List DocEvent) :
    ∀ st : ParserState, SectionsWF st → SectionsWF (processFrom st es) := by
  induction es with
  | nil => intro st h; exact h
  | cons e rest ih =>
    intro st h
    rw [processFrom_cons]
    exact ih (step st e) (sectionsWF_step st e h)

theorem sectionsWF_run (evs : List DocEvent) : SectionsWF (runEvents evs) := by
  refine sectionsWF_processFrom evs initState ⟨?_, ?_⟩
  · intro s hs; simp [initState] at hs
  · intro l hl; simp [initState] at hl

/-- C5 (amended): every section the structural parser records has a level of at
most 9, and levels start at 0: any tag `h` followed by one ASCII digit —
including `h0` — opens a heading, so emitted levels lie in 0..9, not 1..9. -/
theorem c5_section_levels (evs : List DocEvent) :
    ∀ s ∈ (runEvents evs).sections, s.level ≤ 9 :=
  fun s hs => ((sectionsWF_run evs).1 s hs).1

/-- C5 witness: a concrete run with a recorded section of level 1. -/
theorem c5_section_levels_witness :
    ({ order := 1, level := 1, title := "x", word_count := 0 } : SectionRec).level ≤ 9 :=
  c5_section_levels [DocEvent.start "h1", DocEvent.text "x", DocEvent.close "h1"]
    { order := 1, level := 1, title := "x", word_count := 0 } (by decide)

/-- Non-negativity of the skip counter is preserved by every event. -/
theorem skip_nonneg_processFrom (es : List DocEvent) :
    ∀ st : ParserState, 0 ≤ st.skip_depth → 0 ≤ (processFrom st es).skip_depth := by
  induction es with
  | nil => intro st h; exact h
  | cons e rest ih =>
    intro st h
    rw [processFrom_cons]
    refine ih (step st e) ?_
    cases e with
    | start t =>
      rw [show step st (DocEvent.start t) = handle_starttag st t from rfl, starttag_skip]
      split
      · omega
      · exact h
    | close t =>
      rw [show step st (DocEvent.close t) = handle_endtag st t from rfl, endtag_skip]
      split
      · split
        · omega
        · exact h
      · exact h
    | text d =>
      rw [show step st (DocEvent.text d) = handle_data st d from rfl, data_skip]
      exact h

/-- C10: on every reachable parser state the skip-depth counter is non-negative,
and a stray `</script>` or `</style>` seen at depth zero leaves the whole
parser state unchanged (so later text is still counted, hashed and attributed). -/
theorem c10_skip_depth (evs : List DocEvent) :
    0 ≤ (runEvents evs).skip_depth ∧
    ((runEvents evs).skip_depth = 0 →
      handle_endtag (runEvents evs) "script" = runEvents evs ∧
      handle_endtag (runEvents evs) "style" = runEvents evs) := by
  constructor
  · exact skip_nonneg_processFrom evs initState (by decide)
  · intro h0
    constructor
    · show handle_endtag (runEvents evs) "script" = runEvents evs
      unfold handle_endtag
      rw [if_pos (by decide)]
      rw [if_neg (by omega)]
    · show handle_endtag (runEvents evs) "style" = runEvents evs
      unfold handle_endtag
      rw [if_pos (by decide)]
      rw [if_neg (by omega)]

/-- C10 witness: the empty run has depth 0, where a stray close is a no-op. -/
theorem c10_skip_depth_witness :
    0 ≤ (runEvents []).skip_depth ∧ handle_endtag (runEvents []) "script" = runEvents [] :=
  ⟨(c10_skip_depth []).1, ((c10_skip_depth []).2 (by decide)).1⟩

/-! The content-digest stream (C2). -/

/-- The chunks fed to the content digest are exactly the spec-described chunk
stream filtered to chunks containing at least one word match. -/
theorem digest_stream_processFrom (es : List DocEvent) : ∀ st : ParserState,
    (processFrom st es).digest_chunks =
      st.digest_chunks ++
        (specDigestChunks st.skip_depth es).filter (fun c => count_words c != 0) := by
  induction es with
  | nil => intro st; simp [processFrom, specDigestChunks]
  | cons e rest ih =>
    intro st
    rw [processFrom_cons]
    cases e with
    | start t =>
      rw [show step st (DocEvent.start t) = handle_starttag st t from rfl]
      rw [ih, starttag_digest, starttag_skip]
      by_cases hsc : (strLower t == "script" || strLower t == "style") = true
      · simp [specDigestChunks, hsc]
      · simp [specDigestChunks, hsc]
    | close t =>
      rw [show step st (DocEvent.close t) = handle_endtag st t from rfl]
      rw [ih, endtag_digest, endtag_skip]
      by_cases hsc : (strLower t == "script" || strLower t == "style") = true
      · by_cases hd : st.skip_depth > 0
        · simp [specDigestChunks, hsc, hd]
        · simp [specDigestChunks, hsc, hd]
      · simp [specDigestChunks, hsc]
    | text d =>
      rw [show step st (DocEvent.text d) = handle_data st d from rfl]
      rw [ih, data_digest, data_skip]
      by_cases hs : st.skip_depth > 0
      · simp [specDigestChunks, hs]
      · by_cases hc : normalize_space d = ""
        · have hw : count_words (normalize_space d) = 0 := by
            rw [hc]; decide
          simp [specDigestChunks, hs, hc, hw, count_words, countWordsAux]
        · by_cases hw : count_words (normalize_space d) = 0
          · simp [specDigestChunks, hs, hc, hw, List.filter_cons]
          · simp [specDigestChunks, hs, hc, hw, List.filter_cons, List.append_assoc]

/-- C2 (amended): the content digest is fed exactly those non-empty normalized
chunks outside skip regions that contain at least one word-pattern match —
chunks with no word matches (e.g. punctuation-only text) are skipped — and
`content_hash` is the SHA-256 of that filtered stream, each chunk's UTF-8
bytes followed by one newline byte. -/
theorem c2_digest_stream (evs : List DocEvent) :
    (runEvents evs).digest_chunks =
      (specDigestChunks 0 evs).filter (fun c => count_words c != 0) ∧
    content_hash (runEvents evs) =
      sha256Hex (concatAll
        (((specDigestChunks 0 evs).filter (fun c => count_words c != 0)).map
          (fun c => utf8Bytes c ++ [10]))) := by
  have h := digest_stream_processFrom evs initState
  constructor
  · simpa [initState] using h
  · unfold content_hash
    rw [show (runEvents evs).digest_chunks =
          (specDigestChunks 0 evs).filter (fun c => count_words c != 0) by
        simpa [initState] using h]

/-! The active-section invariant and heading/word attribution (C6). -/

/-- The word count added to a section is always added at the last recorded
section: the active index, when set, points at the end of `sections`. -/
def ActiveWF (st : ParserState) : Prop :=
  match st.active_section_index with
  | none => st.sections = []
  | some i => i + 1 = st.sections.length

theorem data_sections_length (st : ParserState) (d : String) :
    (handle_data st d).sections.length = st.sections.length := by
  rw [data_sections]
  split
  · rfl
  · split
    · exact modifyNth_length _ _ _
    · rfl

theorem activeWF_step (st : ParserState) (e : DocEvent) (h : ActiveWF st) :
    ActiveWF (step st e) := by
  cases e with
  | start t =>
    show ActiveWF (handle_starttag st t)
    unfold ActiveWF
    rw [starttag_sections, starttag_active]
    exact h
  | close t =>
    show ActiveWF (handle_endtag st t)
    unfold ActiveWF
    rcases endtag_shape st t with ⟨hse, hact⟩ | ⟨hl, title, hlev, hne, hse, hact⟩
    · rw [hse, hact]
      exact h
    · rw [hse, hact]
      simp
  | text d =>
    show ActiveWF (handle_data st d)
    unfold ActiveWF
    rw [data_active]
    cases ha : st.active_section_index with
    | none =>
      have hsec0 : st.sections = [] := by
        unfold ActiveWF at h
        rwa [ha] at h
      rw [data_sections, ha]
      cases hh : st.heading_level <;> simp [hh, hsec0]
    | some i =>
      rw [data_sections_length]
      unfold ActiveWF at h
      rwa [ha] at h

theorem activeWF_processFrom (es : List DocEvent) :
    ∀ st : ParserState, ActiveWF st → ActiveWF (processFrom st es) := by
  induction es with
  | nil => intro st h; exact h
  | cons e rest ih =>
    intro st h
    rw [processFrom_cons]
    exact ih (step st e) (activeWF_step st e h)

theorem activeWF_run (evs : List DocEvent) : ActiveWF (runEvents evs) := by
  refine activeWF_processFrom evs initState ?_
  unfold ActiveWF
  rfl

/-- Update of the last element of a list (no-op on the empty list). -/
def updateLast (f : α → α) : List α → List α
  | [] => []
  | [a] => [f a]
  | a :: b :: rest => a :: updateLast f (b :: rest)

theorem modifyNth_last (f : α → α) : ∀ (l : List α) (i : Nat), i + 1 = l.length →
    modifyNth f i l = updateLast f l := by
  intro l
  induction l with
  | nil => intro i hi; simp at hi
  | cons a as ih =>
    intro i hi
    cases as with
    | nil =>
      have h0 : i = 0 := by simpa using hi
      subst h0
      rfl
    | cons b rest =>
      cases i with
      | zero =>
        exfalso
        simp only [List.length_cons] at hi
        omega
      | succ n =>
        show a :: modifyNth f n (b :: rest) = a :: updateLast f (b :: rest)
        rw [ih n (by simp only [List.length_cons] at hi ⊢; omega)]

theorem updateLast_wc_zero : ∀ l : List SectionRec,
    updateLast (fun s => { s with word_count := s.word_count + 0 }) l = l := by
  intro l
  induction l with
  | nil => rfl
  | cons a as ih =>
    cases as with
    | nil => rfl
    | cons b rest =>
      show a :: updateLast _ (b :: rest) = a :: (b :: rest)
      rw [ih]

/-- C6: processing a text chunk outside skip regions adds its word count to the
document total in every case; while a heading is open the per-section word
counts are untouched, and while no heading is open the words go to the most
recently recorded (closed) section — the last entry of `sections`. -/
theorem c6_heading_attribution (evs : List DocEvent) (d : String)
    (hskip : (runEvents evs).skip_depth = 0) :
    ((runEvents evs).heading_level.isSome = true →
      (step (runEvents evs) (DocEvent.text d)).total_word_count =
        (runEvents evs).total_word_count + count_words (normalize_space d) ∧
      (step (runEvents evs) (DocEvent.text d)).sections.map SectionRec.word_count =
        (runEvents evs).sections.map SectionRec.word_count) ∧
    ((runEvents evs).heading_level = none →
      (step (runEvents evs) (DocEvent.text d)).total_word_count =
        (runEvents evs).total_word_count + count_words (normalize_space d) ∧
      (step (runEvents evs) (DocEvent.text d)).sections =
        updateLast (fun s => { s with word_count := s.word_count + count_words (normalize_space d) })
          (runEvents evs).sections) := by
  have hA := activeWF_run evs
  have htotal : (step (runEvents evs) (DocEvent.text d)).total_word_count =
      (runEvents evs).total_word_count + count_words (normalize_space d) := by
    rw [show step (runEvents evs) (DocEvent.text d) = handle_data (runEvents evs) d from rfl]
    rw [data_total, if_neg (by omega)]
  constructor
  · intro hh
    refine ⟨htotal, ?_⟩
    rw [show step (runEvents evs) (DocEvent.text d) = handle_data (runEvents evs) d from rfl]
    rw [data_sections]
    split
    · rfl
    · rcases Option.isSome_iff_exists.mp hh with ⟨l, hl⟩
      simp [hl]
  · intro hh
    refine ⟨htotal, ?_⟩
    rw [show step (runEvents evs) (DocEvent.text d) = handle_data (runEvents evs) d from rfl]
    rw [data_sections]
    by_cases hw : count_words (normalize_space d) = 0
    · rw [if_pos (Or.inr hw), hw, updateLast_wc_zero]
    · rw [if_neg (by push_neg; exact ⟨by omega, hw⟩)]
      cases ha : (runEvents evs).active_section_index with
      | none =>
        have hempty : (runEvents evs).sections = [] := by
          unfold ActiveWF at hA
          rw [ha] at hA
          exact hA
        simp [hh, ha, hempty, updateLast]
      | some i =>
        have hlen : i + 1 = (runEvents evs).sections.length := by
          unfold ActiveWF at hA
          rw [ha] at hA
          exact hA
        simp only [hh, ha]
        exact modifyNth_last _ _ _ hlen

/-- C6 witness: after a closed `h1` heading, a two-word chunk raises the total
by 2 and lands on the last section. -/
theorem c6_heading_attribution_witness :
    (step (runEvents [DocEvent.start "h1", DocEvent.text "T", DocEvent.close "h1"])
        (DocEvent.text "hello world")).total_word_count =
      (runEvents [DocEvent.start "h1", DocEvent.text "T", DocEvent.close "h1"]).total_word_count +
        count_words (normalize_space "hello world") ∧
    (step (runEvents [DocEvent.start "h1", DocEvent.text "T", DocEvent.close "h1"])
        (DocEvent.text "hello world")).sections =
      updateLast
        (fun s => { s with word_count := s.word_count + count_words (normalize_space "hello world") })
        (runEvents [DocEvent.start "h1", DocEvent.text "T", DocEvent.close "h1"]).sections :=
  (c6_heading_attribution [DocEvent.start "h1", DocEvent.text "T", DocEvent.close "h1"]
    "hello world" (by decide)).2 (by decide)

/-! Chapter orders (C8) and the chapter-number fallback (C4). -/

/-- The ascending run `[s, s+1, ..., s+n-1]`. -/
def natRange : Nat → Nat → List Nat
  | _, 0 => []
  | s, n + 1 => s :: natRange (s + 1) n

/-- The chapter loop extends the accumulator and numbers the new chapters
consecutively from the accumulator's length. -/
theorem build_orders (spine : List (String × List DocEvent)) :
    ∀ (seen : List String) (acc : List Chapter),
      ∃ tl, buildChaptersAux seen acc spine = acc ++ tl ∧
        tl.map Chapter.order = natRange (acc.length + 1) tl.length := by
  induction spine with
  | nil =>
    intro seen acc
    exact ⟨[], by simp [buildChaptersAux], by simp [natRange]⟩
  | cons hd rest ih =>
    intro seen acc
    obtain ⟨href, doc⟩ := hd
    by_cases hseen : href ∈ seen
    · simpa [buildChaptersAux, hseen] using ih seen acc
    · by_cases hdrop : (parse_document (acc.length + 1) href doc).word_count = 0 ∧
          (parse_document (acc.length + 1) href doc).sections = []
      · simpa [buildChaptersAux, hseen, hdrop] using ih (href :: seen) acc
      · obtain ⟨tl, heq, hmap⟩ := ih (href :: seen) (acc ++ [parse_document (acc.length + 1) href doc])
        refine ⟨parse_document (acc.length + 1) href doc :: tl, ?_, ?_⟩
        · rw [show buildChaptersAux seen acc ((href, doc) :: rest) =
              buildChaptersAux (href :: seen) (acc ++ [parse_document (acc.length + 1) href doc]) rest by
            simp [buildChaptersAux, hseen, hdrop]]
          rw [heq]
          simp
        · rw [List.map_cons, hmap]
          have hlen : (acc ++ [parse_document (acc.length + 1) href doc]).length + 1 =
              acc.length + 1 + 1 := by simp
          rw [hlen]
          rfl

/-- C8: the order fields of the chapters of a successfully built outline are
exactly the contiguous sequence 1..N, in list order, for every spine —
including spines with duplicate hrefs and dropped empty documents. -/
theorem c8_orders_contiguous (spine : List (String × List DocEvent)) (chs : List Chapter)
    (h : build_outline spine = Except.ok chs) :
    chs.map Chapter.order = natRange 1 chs.length := by
  have hch : chs = buildChaptersAux [] [] spine := by
    unfold build_outline at h
    split at h
    · exact absurd h (by simp)
    · split at h
      · exact absurd h (by simp)
      · injection h with h
        exact h.symm
  subst hch
  obtain ⟨tl, heq, hmap⟩ := build_orders spine [] []
  rw [show buildChaptersAux [] [] spine = tl by simpa using heq]
  simpa using hmap

/-- C8 witness: a one-document spine builds with orders `[1]`. -/
theorem c8_orders_contiguous_witness :
    (buildChaptersAux [] [] [("b.xhtml", [DocEvent.text "hello"])]).map Chapter.order =
      natRange 1 (buildChaptersAux [] [] [("b.xhtml", [DocEvent.text "hello"])]).length :=
  c8_orders_contiguous [("b.xhtml", [DocEvent.text "hello"])] _ (by
    unfold build_outline
    rw [if_neg (by decide), if_neg (by decide)])

/-- When neither regex finds a hint in the parsed title or the href, the
chapter number of a parsed document equals its order argument. -/
theorem parse_document_fallback (o : Nat) (href : String) (evs : List DocEvent)
    (ht : chapterHint (parse_document o href evs).title = none)
    (hh : chapterHint href = none) :
    (parse_document o href evs).chapter_number = (parse_document o href evs).order := by
  show infer_chapter_number (chapter_title_of href evs) href o = o
  have ht' : chapterHint (chapter_title_of href evs) = none := ht
  simp [infer_chapter_number, ht', hh]

/-- Every chapter the loop emits is the parse of some document. -/
theorem build_mem_parse (spine : List (String × List DocEvent)) :
    ∀ (seen : List String) (acc : List Chapter) (c : Chapter),
      c ∈ buildChaptersAux seen acc spine →
      c ∈ acc ∨ ∃ o href evs, c = parse_document o href evs := by
  induction spine with
  | nil => intro seen acc c h; exact Or.inl h
  | cons hd rest ih =>
    intro seen acc c h
    obtain ⟨href, doc⟩ := hd
    by_cases hseen : href ∈ seen
    · exact ih seen acc c (by simpa [buildChaptersAux, hseen] using h)
    · by_cases hdrop : (parse_document (acc.length + 1) href doc).word_count = 0 ∧
          (parse_document (acc.length + 1) href doc).sections = []
      · exact ih _ acc c (by simpa [buildChaptersAux, hseen, hdrop] using h)
      · have h' := ih (href :: seen) (acc ++ [parse_document (acc.length + 1) href doc]) c
          (by simpa [buildChaptersAux, hseen, hdrop] using h)
        rcases h' with hmem | hex
        · rcases List.mem_append.mp hmem with h1 | h2
          · exact Or.inl h1
          · simp only [List.mem_singleton] at h2
            exact Or.inr ⟨_, _, _, h2⟩
        · exact Or.inr hex

/-- C4 (amended): when a chapter's title and href match neither chapter-number
pattern, its chapter_number equals its order — its 1-based position among the
chapters that survive the empty-document drop, not its position in the
deduplicated spine counted before empties are dropped. -/
theorem c4_fallback_chapter_number (spine : List (String × List DocEvent)) (c : Chapter)
    (hc : c ∈ buildChaptersAux [] [] spine)
    (ht : chapterHint c.title = none) (hh : chapterHint c.href = none) :
    c.chapter_number = c.order := by
  rcases build_mem_parse spine [] [] c hc with h | ⟨o, href, evs, rfl⟩
  · simp at h
  · exact parse_document_fallback o href evs ht hh

set_option maxRecDepth 100000 in
/-- C4 witness: the surviving chapter of the two-document spine gets its
fallback number from the theorem at a concrete input. -/
theorem c4_fallback_chapter_number_witness :
    (parse_document 1 "b.xhtml" [DocEvent.text "hello"]).chapter_number =
      (parse_document 1 "b.xhtml" [DocEvent.text "hello"]).order :=
  c4_fallback_chapter_number [("b.xhtml", [DocEvent.text "hello"])]
    (parse_document 1 "b.xhtml" [DocEvent.text "hello"]) (by decide) (by decide) (by decide)

/-! The raw-archive spine loader yields manifest hrefs (C3). -/

/-- Every yielded spine entry carries the unresolved manifest href of one of
the idrefs, an html-ish media type, and the bytes read at the href resolved
against the package directory. -/
theorem load_spine_aux_mem (opf_dir : String) (manifest : List ManifestItem)
    (archive : List (String × List Nat)) :
    ∀ (refs : List String) (order : Nat) (e : Nat × String × List Nat),
      e ∈ load_spine_aux opf_dir manifest archive order refs →
      ∃ idref media, idref ∈ refs ∧
        manifestLookup manifest idref = some (e.2.1, media) ∧
        htmlish media = true ∧
        archiveRead archive (posixNormpath (posixJoin opf_dir e.2.1)) = some e.2.2 := by
  intro refs
  induction refs with
  | nil => intro order e h; simp [load_spine_aux] at h
  | cons idref rest ih =>
    intro order e h
    rw [show load_spine_aux opf_dir manifest archive order (idref :: rest) =
        (if idref == "" then load_spine_aux opf_dir manifest archive order rest
         else
           match manifestLookup manifest idref with
           | none => load_spine_aux opf_dir manifest archive order rest
           | some (href, media) =>
             if !htmlish media then load_spine_aux opf_dir manifest archive order rest
             else
               match archiveRead archive (posixNormpath (posixJoin opf_dir href)) with
               | none => load_spine_aux opf_dir manifest archive order rest
               | some content =>
                 (order + 1, href, content) ::
                   load_spine_aux opf_dir manifest archive (order + 1) rest) from rfl] at h
    split at h
    · obtain ⟨i, m, hi, hrest⟩ := ih order e h
      exact ⟨i, m, List.mem_cons_of_mem _ hi, hrest⟩
    · split at h
      · obtain ⟨i, m, hi, hrest⟩ := ih order e h
        exact ⟨i, m, List.mem_cons_of_mem _ hi, hrest⟩
      · rename_i href media hlook
        split at h
        · obtain ⟨i, m, hi, hrest⟩ := ih order e h
          exact ⟨i, m, List.mem_cons_of_mem _ hi, hrest⟩
        · rename_i hhtml
          split at h
          · obtain ⟨i, m, hi, hrest⟩ := ih order e h
            exact ⟨i, m, List.mem_cons_of_mem _ hi, hrest⟩
          · rename_i content hread
            rcases List.mem_cons.mp h with he | hm
            · subst he
              refine ⟨idref, media, List.mem_cons_self _ _, hlook, ?_, hread⟩
              simpa using hhtml
            · obtain ⟨i, m, hi, hrest⟩ := ih (order + 1) e hm
              exact ⟨i, m, List.mem_cons_of_mem _ hi, hrest⟩

/-- C3 (amended): every entry the raw-archive fallback yields has as its path
component the unresolved manifest href of a spine idref; the resolution against
the package document's directory (with `.`/`..` normalized) is applied only to
locate the bytes inside the archive. -/
theorem c3_spine_yields_manifest_href (opf_path : String) (manifest : List ManifestItem)
    (spine_refs : List String) (archive : List (String × List Nat))
    (e : Nat × String × List Nat)
    (he : e ∈ load_spine_from_zip opf_path manifest spine_refs archive) :
    ∃ idref media, idref ∈ spine_refs ∧
      manifestLookup manifest idref = some (e.2.1, media) ∧
      htmlish media = true ∧
      archiveRead archive (posixNormpath (posixJoin (posixDirname opf_path) e.2.1)) =
        some e.2.2 :=
  load_spine_aux_mem (posixDirname opf_path) manifest archive spine_refs 0 e he

/-- C3 witness: the single yielded entry of the concrete archive satisfies the
manifest-href characterization. -/
theorem c3_spine_yields_manifest_href_witness :
    ∃ idref media, idref ∈ ["c1"] ∧
      manifestLookup zipManifest idref = some ("text/ch1.xhtml", media) ∧
      htmlish media = true ∧
      archiveRead zipArchive
        (posixNormpath (posixJoin (posixDirname "OEBPS/content.opf") "text/ch1.xhtml")) =
        some [60, 112, 62] :=
  c3_spine_yields_manifest_href "OEBPS/content.opf" zipManifest ["c1"] zipArchive
    (1, "text/ch1.xhtml", [60, 112, 62]) (by decide)

/-! The drop rule and fatal-failure behaviour (C7). -/

/-- With at least one heading, the chapter title is the first heading's title
(recorded headings always have non-empty titles), whatever the href. -/
theorem chapter_title_heads (href : String) (evs : List DocEvent) (h0 : SectionRec)
    (rest : List SectionRec) (hh : (runEvents evs).sections = h0 :: rest) :
    chapter_title_of href evs = h0.title := by
  have hne : h0.title ≠ "" :=
    ((sectionsWF_run evs).1 h0 (hh ▸ List.mem_cons_self _ _)).2
  unfold chapter_title_of first_heading_title pyOr
  rw [hh]
  simp [hne]

/-- The emitted-rows selection does not depend on the href. -/
theorem section_rows_href_indep (href href' : String) (evs : List DocEvent) :
    section_rows_of href evs = section_rows_of href' evs := by
  unfold section_rows_of
  cases hh : (runEvents evs).sections with
  | nil => rfl
  | cons h0 rest =>
    rw [chapter_title_heads href evs h0 rest hh, chapter_title_heads href' evs h0 rest hh]

/-- Emptiness of a parsed chapter's section list depends only on the document. -/
theorem parse_sections_empty_iff (o : Nat) (href : String) (evs : List DocEvent) :
    (parse_document o href evs).sections = [] ↔ section_rows_of "" evs = [] := by
  show ((enumFrom 1 (section_rows_of href evs)).map _ = []) ↔ _
  rw [section_rows_href_indep href "" evs]
  cases h : section_rows_of "" evs <;> simp [enumFrom]

/-- A document is dropped by the assembler exactly when it carries no words and
produces no emitted sections; this is a property of the document alone. -/
def droppedDoc (evs : List DocEvent) : Prop :=
  (runEvents evs).total_word_count = 0 ∧ section_rows_of "" evs = []

instance droppedDocDecidable (evs : List DocEvent) : Decidable (droppedDoc evs) :=
  inferInstanceAs (Decidable (_ ∧ _))

/-- The assembler's drop condition coincides with `droppedDoc`, independently
of the order and href passed to `parse_document`. -/
theorem drop_cond_iff (o : Nat) (href : String) (evs : List DocEvent) :
    ((parse_document o href evs).word_count = 0 ∧ (parse_document o href evs).sections = []) ↔
      droppedDoc evs :=
  and_congr Iff.rfl (parse_sections_empty_iff o href evs)

/-- Entries of the deduplicated spine never carry an href from the seen set. -/
theorem dedup_notin_seen (spine : List (String × List DocEvent)) :
    ∀ (seen : List String) (href : String) (doc : List DocEvent),
      (href, doc) ∈ dedupAux seen spine → href ∉ seen := by
  induction spine with
  | nil => intro seen href doc h; simp [dedupAux] at h
  | cons hd rest ih =>
    intro seen href doc h
    obtain ⟨h1, d1⟩ := hd
    by_cases hs : h1 ∈ seen
    · exact ih seen href doc (by simpa [dedupAux, hs] using h)
    · have h' : (href, doc) = (h1, d1) ∨ (href, doc) ∈ dedupAux (h1 :: seen) rest := by
        simpa [dedupAux, hs] using h
      rcases h' with he | hm
      · rw [Prod.mk.injEq] at he
        obtain ⟨rfl, rfl⟩ := he
        exact hs
      · intro hmem
        exact ih (h1 :: seen) href doc hm (List.mem_cons_of_mem _ hmem)

/-- The deduplicated spine holds at most one document per href. -/
theorem dedup_unique (spine : List (String × List DocEvent)) :
    ∀ (seen : List String) (href : String) (d1 d2 : List DocEvent),
      (href, d1) ∈ dedupAux seen spine → (href, d2) ∈ dedupAux seen spine → d1 = d2 := by
  induction spine with
  | nil => intro seen href d1 d2 h; simp [dedupAux] at h
  | cons hd rest ih =>
    intro seen href d1 d2 h1 h2
    obtain ⟨h0, doc0⟩ := hd
    by_cases hs : h0 ∈ seen
    · exact ih seen href d1 d2 (by simpa [dedupAux, hs] using h1)
        (by simpa [dedupAux, hs] using h2)
    · have h1' : (href, d1) = (h0, doc0) ∨ (href, d1) ∈ dedupAux (h0 :: seen) rest := by
        simpa [dedupAux, hs] using h1
      have h2' : (href, d2) = (h0, doc0) ∨ (href, d2) ∈ dedupAux (h0 :: seen) rest := by
        simpa [dedupAux, hs] using h2
      rcases h1' with he1 | hm1 <;> rcases h2' with he2 | hm2
      · rw [Prod.mk.injEq] at he1 he2
        exact he1.2.trans he2.2.symm
      · rw [Prod.mk.injEq] at he1
        exact absurd (he1.1 ▸ dedup_notin_seen rest (h0 :: seen) href d2 hm2)
          (by simp)
      · rw [Prod.mk.injEq] at he2
        exact absurd (he2.1 ▸ dedup_notin_seen rest (h0 :: seen) href d1 hm1)
          (by simp)
      · exact ih (h0 :: seen) href d1 d2 hm1 hm2

/-- Existential over an appended chapter list splits. -/
theorem exists_href_append (l1 l2 : List Chapter) (href : String) :
    (∃ c ∈ l1 ++ l2, c.href = href) ↔
      (∃ c ∈ l1, c.href = href) ∨ (∃ c ∈ l2, c.href = href) := by
  constructor
  · rintro ⟨c, hc, he⟩
    rcases List.mem_append.mp hc with h | h
    · exact Or.inl ⟨c, h, he⟩
    · exact Or.inr ⟨c, h, he⟩
  · rintro (⟨c, h, he⟩ | ⟨c, h, he⟩)
    · exact ⟨c, List.mem_append.mpr (Or.inl h), he⟩
    · exact ⟨c, List.mem_append.mpr (Or.inr h), he⟩

/-- An href appears in the built chapters exactly when it belongs to the
accumulator or names a non-dropped document of the deduplicated spine. -/
theorem build_mem_iff (spine : List (String × List DocEvent)) :
    ∀ (seen : List String) (acc : List Chapter) (href : String),
      (∃ c ∈ buildChaptersAux seen acc spine, c.href = href) ↔
        ((∃ c ∈ acc, c.href = href) ∨
         ∃ evs, (href, evs) ∈ dedupAux seen spine ∧ ¬ droppedDoc evs) := by
  induction spine with
  | nil =>
    intro seen acc href
    simp [buildChaptersAux, dedupAux]
  | cons hd rest ih =>
    intro seen acc href
    obtain ⟨h0, doc0⟩ := hd
    by_cases hs : h0 ∈ seen
    · simpa [buildChaptersAux, dedupAux, hs] using ih seen acc href
    · by_cases hdrop : droppedDoc doc0
      · have hcode : (parse_document (acc.length + 1) h0 doc0).word_count = 0 ∧
            (parse_document (acc.length + 1) h0 doc0).sections = [] :=
          (drop_cond_iff _ _ _).mpr hdrop
        rw [show buildChaptersAux seen acc ((h0, doc0) :: rest) =
            buildChaptersAux (h0 :: seen) acc rest by simp [buildChaptersAux, hs, hcode]]
        rw [show dedupAux seen ((h0, doc0) :: rest) =
            (h0, doc0) :: dedupAux (h0 :: seen) rest by simp [dedupAux, hs]]
        rw [ih (h0 :: seen) acc href]
        constructor
        · rintro (h | ⟨evs, hm, hnd⟩)
          · exact Or.inl h
          · exact Or.inr ⟨evs, List.mem_cons_of_mem _ hm, hnd⟩
        · rintro (h | ⟨evs, hm, hnd⟩)
          · exact Or.inl h
          · rcases List.mem_cons.mp hm with he | hm2
            · rw [Prod.mk.injEq] at he
              exact absurd (he.2 ▸ hdrop) hnd
            · exact Or.inr ⟨evs, hm2, hnd⟩
      · have hcode : ¬ ((parse_document (acc.length + 1) h0 doc0).word_count = 0 ∧
            (parse_document (acc.length + 1) h0 doc0).sections = []) :=
          fun hc => hdrop ((drop_cond_iff _ _ _).mp hc)
        rw [show buildChaptersAux seen acc ((h0, doc0) :: rest) =
            buildChaptersAux (h0 :: seen)
              (acc ++ [parse_document (acc.length + 1) h0 doc0]) rest by
          simp [buildChaptersAux, hs, hcode]]
        rw [show dedupAux seen ((h0, doc0) :: rest) =
            (h0, doc0) :: dedupAux (h0 :: seen) rest by simp [dedupAux, hs]]
        rw [ih (h0 :: seen) (acc ++ [parse_document (acc.length + 1) h0 doc0]) href]
        rw [exists_href_append]
        have hsingle : (∃ c ∈ [parse_document (acc.length + 1) h0 doc0], c.href = href) ↔
            h0 = href := by
          simp [show (parse_document (acc.length + 1) h0 doc0).href = h0 from rfl]
        rw [hsingle]
        constructor
        · rintro ((h | h) | ⟨evs, hm, hnd⟩)
          · exact Or.inl h
          · subst h
            exact Or.inr ⟨doc0, List.mem_cons_self _ _, hdrop⟩
          · exact Or.inr ⟨evs, List.mem_cons_of_mem _ hm, hnd⟩
        · rintro (h | ⟨evs, hm, hnd⟩)
          · exact Or.inl (Or.inl h)
          · rcases List.mem_cons.mp hm with he | hm2
            · rw [Prod.mk.injEq] at he
              exact Or.inl (Or.inr he.1.symm)
            · exact Or.inr ⟨evs, hm2, hnd⟩

/-- When every deduplicated document is dropped, the loop adds nothing. -/
theorem build_all_dropped (spine : List (String × List DocEvent)) :
    ∀ (seen : List String) (acc : List Chapter),
      (∀ e ∈ dedupAux seen spine, droppedDoc e.2) →
      buildChaptersAux seen acc spine = acc := by
  induction spine with
  | nil => intro seen acc _; rfl
  | cons hd rest ih =>
    intro seen acc hall
    obtain ⟨h0, doc0⟩ := hd
    by_cases hs : h0 ∈ seen
    · rw [show buildChaptersAux seen acc ((h0, doc0) :: rest) =
          buildChaptersAux seen acc rest by simp [buildChaptersAux, hs]]
      exact ih seen acc (fun e he => hall e (by simpa [dedupAux, hs] using he))
    · have hd0 : droppedDoc doc0 := hall (h0, doc0) (by simp [dedupAux, hs])
      have hcode := (drop_cond_iff (acc.length + 1) h0 doc0).mpr hd0
      rw [show buildChaptersAux seen acc ((h0, doc0) :: rest) =
          buildChaptersAux (h0 :: seen) acc rest by simp [buildChaptersAux, hs, hcode]]
      refine ih (h0 :: seen) acc (fun e he => hall e ?_)
      simp only [dedupAux, if_neg hs, List.mem_cons]
      exact Or.inr he

/-- C7: a parsed chapter appears in the outline iff its document is not empty
(word count zero and no emitted sections); and when every deduplicated spine
document is dropped by that rule, outline construction fails with an error,
the process exits with code 1, and no output file is written. -/
theorem c7_drop_rule :
    (∀ (spine : List (String × List DocEvent)) (href : String) (evs : List DocEvent),
      (href, evs) ∈ dedupAux [] spine →
      ((∃ c ∈ buildChaptersAux [] [] spine, c.href = href) ↔ ¬ droppedDoc evs)) ∧
    (∀ spine : List (String × List DocEvent),
      (∀ e ∈ dedupAux [] spine, droppedDoc e.2) →
      (∃ msg, build_outline spine = Except.error msg) ∧
        main_run true spine = (1, false)) := by
  constructor
  · intro spine href evs hmem
    have hiff := build_mem_iff spine [] [] href
    simp only [List.not_mem_nil, false_and, exists_false, false_or] at hiff
    rw [hiff]
    constructor
    · rintro ⟨evs', hm', hnd'⟩
      rwa [dedup_unique spine [] href evs' evs hm' hmem] at hnd'
    · intro hnd
      exact ⟨evs, hmem, hnd⟩
  · intro spine hall
    by_cases hsp : spine = []
    · subst hsp
      exact ⟨⟨"No spine XHTML documents found in EPUB.", rfl⟩, rfl⟩
    · have hch : buildChaptersAux [] [] spine = [] := build_all_dropped spine [] [] hall
      constructor
      · refine ⟨"Spine parsing finished, but no chapter structure was extracted.", ?_⟩
        unfold build_outline
        rw [if_neg hsp, if_pos hch]
      · unfold main_run build_outline
        rw [if_neg hsp, if_pos hch]
        rfl

/-- C7 witness: a spine holding only one empty document yields no chapter for
its href, fails outline construction, exits 1 and writes nothing. -/
theorem c7_drop_rule_witness :
    (¬ ∃ c ∈ buildChaptersAux [] [] [("a.xhtml", ([] : List DocEvent))], c.href = "a.xhtml") ∧
    main_run true [("a.xhtml", ([] : List DocEvent))] = (1, false) := by
  constructor
  · intro hex
    exact ((c7_drop_rule.1 [("a.xhtml", [])] "a.xhtml" [] (by decide)).mp hex) (by decide)
  · exact (c7_drop_rule.2 [("a.xhtml", [])] (by decide)).2
